import Mathlib

/-!
Verification of the Pascal runtime-support shim (`pascal_lib.c`) against its
natural-language specification.

The C file is a thin layer: an entry point forwarding to an external
`asm_main`, formatted-output wrappers over `printf`, a `malloc` wrapper, an
explicit rounding helper `iround`, and macro-generated single-precision
variants.  We embed it shallowly:

* C `double` values are modelled by exact rationals `ℚ`, and the one
  arithmetic step the shim itself performs on them (`x + 0.5` resp.
  `x - 0.5` inside `iround`) is modelled as the exact sum: the re-rounding
  IEEE addition applies when the exact sum needs more than 53 significand
  bits is outside this embedding's scope.  Widening a `float` argument to
  `double` is exact in IEEE and is the identity here.
* The double→int conversion truncates toward zero (C11 6.3.1.4) and is
  modelled by `ctrunc`; its partiality outside the `int` range is modelled
  by `doubleToInt` returning `none`.
* External code (libm's `sin`/`cos`/`sqrt`/`exp`/`round`, the platform
  allocator, the linked `asm_main`) is not part of this repository and is
  modelled by parameters, so the theorems hold for every behaviour of the
  platform.
* Side effects on standard output are modelled by the string a call emits;
  a run of calls emits the concatenation of the individual outputs.
* `printf`'s `%g` conversion (default precision 6) is modelled by `formatG`,
  computing on the exact value: round to 6 significant decimal digits, pick
  fixed or scientific style from the decimal exponent, strip trailing
  fractional zeros.
* Where a value must round-trip through binary32 (the `FUNC32` wrappers),
  representability is the predicate `Fin32Repr` (a 24-bit significand and
  the binary32 exponent range), and the int→float conversion at `iround32`'s
  return is `intToF32`, rounding to 24 significant bits, nearest, ties to
  even.

All definitions are executable; computations stay on the integer fields
`Rat.num`/`Rat.den` so concrete instances evaluate by `decide`, and bridge
lemmas relate them to ordinary `ℚ` arithmetic for the proofs.
-/

/-- Floor of a rational, computed on its fields: `⌊q⌋ = q.num / q.den`
(euclidean division by the positive denominator). -/
def qfloor (q : ℚ) : ℤ := q.num / (q.den : ℤ)

/-- Ceiling of a rational, computed on its fields via `⌈q⌉ = -⌊-q⌋`. -/
def qceil (q : ℚ) : ℤ := -((-q.num) / (q.den : ℤ))

/-- The C double→int conversion step (C11 6.3.1.4): discard the fractional
part, i.e. truncate toward zero. -/
def ctrunc (q : ℚ) : ℤ := if 0 ≤ q then qfloor q else qceil q

/-- The addition `x + 0.5` performed by `iround` (`pascal_lib.c:38`),
modelled as the exact sum, computed on the fields of `x`. -/
def addHalf (x : ℚ) : ℚ := mkRat (2 * x.num + (x.den : ℤ)) (2 * x.den)

/-- The subtraction `x - 0.5` performed by `iround` (`pascal_lib.c:39`),
modelled as the exact difference, computed on the fields of `x`. -/
def subHalf (x : ℚ) : ℚ := mkRat (2 * x.num - (x.den : ℤ)) (2 * x.den)

/-- C `iround` (`pascal_lib.c:35-41`): `if (x >= 0.0) n = x + 0.5; else
n = x - 0.5; return n;` where the assignment to the `int` variable `n`
truncates toward zero. -/
def iround (x : ℚ) : ℤ := if 0 ≤ x then ctrunc (addHalf x) else ctrunc (subHalf x)

/-- Round-half-away-from-zero as the spec words it: the nearest integer,
with `.5` ties going to the adjacent integer of larger magnitude — round
the magnitude half-up, then restore the sign. -/
def rhafz (x : ℚ) : ℤ := if 0 ≤ x then ⌊x + 1/2⌋ else -⌊-x + 1/2⌋

theorem qfloor_eq (q : ℚ) : qfloor q = ⌊q⌋ := Rat.floor_def.symm

theorem ceil_eq_neg_floor_neg (q : ℚ) : ⌈q⌉ = -⌊-q⌋ := by
  rw [Int.floor_neg, neg_neg]

theorem qceil_eq (q : ℚ) : qceil q = ⌈q⌉ := by
  rw [ceil_eq_neg_floor_neg, ← qfloor_eq, qfloor, qceil,
    Rat.num_neg_eq_neg_num, Rat.den_neg_eq_den]

theorem num_eq_mul_den (x : ℚ) : (x.num : ℚ) = x * x.den :=
  (div_eq_iff (Nat.cast_ne_zero.mpr x.den_nz)).mp (Rat.num_div_den x)

theorem addHalf_eq (x : ℚ) : addHalf x = x + 1/2 := by
  have hd : ((x.den : ℚ)) ≠ 0 := Nat.cast_ne_zero.mpr x.den_nz
  have h2 : (2 * (x.den : ℚ)) ≠ 0 := mul_ne_zero two_ne_zero hd
  rw [addHalf, Rat.mkRat_eq_div]
  push_cast
  rw [div_eq_iff h2, num_eq_mul_den]
  ring

theorem subHalf_eq (x : ℚ) : subHalf x = x - 1/2 := by
  have hd : ((x.den : ℚ)) ≠ 0 := Nat.cast_ne_zero.mpr x.den_nz
  have h2 : (2 * (x.den : ℚ)) ≠ 0 := mul_ne_zero two_ne_zero hd
  rw [subHalf, Rat.mkRat_eq_div]
  push_cast
  rw [div_eq_iff h2, num_eq_mul_den]
  ring

theorem ctrunc_of_nonneg {q : ℚ} (h : 0 ≤ q) : ctrunc q = ⌊q⌋ := by
  rw [ctrunc, if_pos h, qfloor_eq]

theorem ctrunc_of_neg {q : ℚ} (h : q < 0) : ctrunc q = ⌈q⌉ := by
  rw [ctrunc, if_neg (not_le.mpr h), qceil_eq]

theorem iround_of_nonneg {x : ℚ} (h : 0 ≤ x) : iround x = ⌊x + 1/2⌋ := by
  rw [iround, if_pos h, addHalf_eq, ctrunc_of_nonneg (by linarith)]

theorem iround_of_neg {x : ℚ} (h : x < 0) : iround x = ⌈x - 1/2⌉ := by
  rw [iround, if_neg (not_le.mpr h), subHalf_eq, ctrunc_of_neg (by linarith)]

theorem iround_eq_rhafz (x : ℚ) : iround x = rhafz x := by
  by_cases h : 0 ≤ x
  · rw [iround_of_nonneg h, rhafz, if_pos h]
  · rw [iround_of_neg (not_le.mp h), rhafz, if_neg h, ceil_eq_neg_floor_neg]
    have hx : -(x - 1/2) = -x + 1/2 := by ring
    rw [hx]

theorem iround_nearest (x : ℚ) : |x - (iround x : ℚ)| ≤ 1/2 := by
  by_cases h : 0 ≤ x
  · rw [iround_of_nonneg h]
    have h1 : ((⌊x + 1/2⌋ : ℤ) : ℚ) ≤ x + 1/2 := Int.floor_le _
    have h2 : x + 1/2 < ⌊x + 1/2⌋ + 1 := Int.lt_floor_add_one _
    rw [abs_le]
    constructor <;> linarith
  · rw [iround_of_neg (not_le.mp h)]
    have h1 : x - 1/2 ≤ ((⌈x - 1/2⌉ : ℤ) : ℚ) := Int.le_ceil _
    have h2 : ((⌈x - 1/2⌉ : ℤ) : ℚ) < x - 1/2 + 1 := Int.ceil_lt_add_one _
    rw [abs_le]
    constructor <;> linarith

theorem iround_intCast (n : ℤ) : iround (n : ℚ) = n := by
  by_cases h : 0 ≤ n
  · rw [iround_of_nonneg (by exact_mod_cast h)]
    rw [Int.floor_eq_iff]
    constructor <;> linarith
  · rw [iround_of_neg (by exact_mod_cast not_le.mp h)]
    rw [Int.ceil_eq_iff]
    constructor <;> linarith

theorem abs_iround_le (x : ℚ) : |(iround x : ℚ)| ≤ |x| + 1/2 := by
  have h := iround_nearest x
  have h2 : |(iround x : ℚ)| - |x| ≤ |(iround x : ℚ) - x| := abs_sub_abs_le_abs_sub _ _
  rw [abs_sub_comm] at h2
  linarith

/-- C1: `iround` returns the nearest integer under round-half-away-from-zero
tie-breaking, computed exactly by the stated algorithm (add `0.5` for
non-negative inputs, subtract `0.5` for negative ones, truncate toward
zero); in particular `iround 2.5 = 3`, `iround (-2.5) = -3`,
`iround 2.4 = 2`, `iround 0 = 0` (non-negative branch) and
`iround (-0.5) = -1`. -/
theorem C1_iround_half_away_from_zero :
    (∀ x : ℚ, iround x = rhafz x ∧ |x - (iround x : ℚ)| ≤ 1/2) ∧
    iround 2.5 = 3 ∧ iround (-2.5) = -3 ∧ iround 2.4 = 2 ∧
    iround 0 = 0 ∧ iround (-0.5) = -1 := by
  refine ⟨fun x => ⟨iround_eq_rhafz x, iround_nearest x⟩, ?_, ?_, ?_, ?_, ?_⟩
  · rw [show (2.5 : ℚ) = mkRat 5 2 by norm_num [Rat.mkRat_eq_div]]; decide
  · rw [show (-2.5 : ℚ) = mkRat (-5) 2 by norm_num [Rat.mkRat_eq_div]]; decide
  · rw [show (2.4 : ℚ) = mkRat 12 5 by norm_num [Rat.mkRat_eq_div]]; decide
  · rw [show (0 : ℚ) = mkRat 0 1 by norm_num [Rat.mkRat_eq_div]]; decide
  · rw [show (-0.5 : ℚ) = mkRat (-1) 2 by norm_num [Rat.mkRat_eq_div]]; decide

/-- C `write` (`pascal_lib.c:21`): `printf("%s", str)`.  A void output
function is modelled by the text it emits to standard output. -/
def write (str : String) : String := str

/-- C `writeln` (`pascal_lib.c:23`): `printf("%s\n", str)` — the text
followed by a single newline. -/
def writeln (str : String) : String := str ++ "\n"

/-- C `writei` (`pascal_lib.c:27`): `printf("%d", n)` — signed decimal
rendering of the int argument. -/
def writei (n : ℤ) : String := Int.repr n

/-- C `writelni` (`pascal_lib.c:31`): `printf("%d\n", n)`. -/
def writelni (n : ℤ) : String := Int.repr n ++ "\n"

/-- Standard output produced by a sequence of wrapper calls: the emitted
strings in call order, concatenated, nothing injected between them. -/
def runOutput (outs : List String) : String := outs.foldr (fun s acc => s ++ acc) ""

theorem runOutput_append (a b : List String) :
    runOutput (a ++ b) = runOutput a ++ runOutput b := by
  induction a with
  | nil => simp [runOutput]
  | cons s t ih =>
      simp only [runOutput, List.cons_append, List.foldr_cons] at ih ⊢
      rw [ih, String.append_assoc]

/-- Model of the externally linked `asm_main` symbol (`pascal_lib.c:15`):
`ext i` is the int its `i`-th invocation returns; invoking it advances the
invocation counter by one. -/
def callAsmMain (ext : ℕ → ℤ) (calls : ℕ) : ℤ × ℕ := (ext calls, calls + 1)

namespace Shim

/-- C `main` (`pascal_lib.c:17-19`): `int main() { return asm_main(); }` —
the pair of the propagated exit status and the final invocation counter.
(Namespaced because Lean reserves the root name `main` for executables.) -/
def main (ext : ℕ → ℤ) (calls : ℕ) : ℤ × ℕ := callAsmMain ext calls

end Shim

/-- C3: `main` takes no arguments beyond the modelled external world,
invokes `asm_main` exactly once, and returns its integer result verbatim
as the process exit status; in particular an external entry returning `7`
exits with status `7`. -/
theorem C3_main_forwards_asm_main :
    (∀ ext : ℕ → ℤ, Shim.main ext 0 = (ext 0, 0 + 1)) ∧
    Shim.main (fun _ => 7) 0 = (7, 1) := ⟨fun _ => rfl, rfl⟩

/-- C5: `write` emits exactly its argument and `writeln` exactly its
argument followed by one newline; runs of calls concatenate their outputs
in call order with no injected separator, so `write "abc"` then
`write "def"` yields `"abcdef"` and `writeln "abc"` yields `"abc\n"`. -/
theorem C5_write_writeln_verbatim :
    (∀ s : String, write s = s ∧ writeln s = s ++ "\n") ∧
    runOutput [write "abc", write "def"] = "abcdef" ∧
    writeln "abc" = "abc\n" ∧
    (∀ a b : List String, runOutput (a ++ b) = runOutput a ++ runOutput b) :=
  ⟨fun _ => ⟨rfl, rfl⟩, rfl, rfl, runOutput_append⟩

/-- Fuel-driven base-10 logarithm on naturals: number of times `n` can be
divided by 10 before dropping below 10 (0 for `n < 10`). -/
def natLog10Aux : ℕ → ℕ → ℕ
  | 0, _ => 0
  | fuel+1, n => if n < 10 then 0 else natLog10Aux fuel (n / 10) + 1

/-- Floor of log base 10 on naturals (0 at 0), executable by kernel
reduction. -/
def natLog10 (n : ℕ) : ℕ := natLog10Aux n n

/-- Ten to an integer power, as an exact rational. -/
def pow10 (e : ℤ) : ℚ := if 0 ≤ e then mkRat ((10 : ℤ)^e.toNat) 1 else mkRat 1 (10^(-e).toNat)

/-- Floor of log base 10 of the positive fraction `p / q`: the unique `e`
with `10^e ≤ p/q < 10^(e+1)`, computed from digit counts plus one
cross-multiplied comparison. -/
def floorLog10Pos (p q : ℕ) : ℤ :=
  let e0 : ℤ := (natLog10 p : ℤ) - (natLog10 q : ℤ)
  let ge : Bool := if 0 ≤ e0 then decide (10^e0.toNat * q ≤ p) else decide (q ≤ p * 10^(-e0).toNat)
  if ge then e0 else e0 - 1

/-- Round the non-negative fraction `p / q` (with `q ≠ 0`) to the nearest
natural, ties to even — the correct rounding `printf` applies to the exact
value when producing a shorter decimal. -/
def roundHalfEvenPQ (p q : ℕ) : ℕ :=
  let e := p / q
  let r := p % q
  if 2 * r < q then e else if q < 2 * r then e + 1 else if e % 2 = 0 then e else e + 1

/-- Round the positive fraction `p / q` to 6 significant decimal digits:
returns the 6-digit significand `n` (`10^5 ≤ n < 10^6`) and the decimal
exponent `x` of the rounded value, so that it equals `n * 10^(x-5)`. -/
def sig6 (p q : ℕ) : ℕ × ℤ :=
  let e1 := floorLog10Pos p q
  let pp := if e1 ≤ 5 then p * 10^(5 - e1).toNat else p
  let qq := if e1 ≤ 5 then q else q * 10^(e1 - 5).toNat
  let n0 := roundHalfEvenPQ pp qq
  if n0 = 10^6 then (10^5, e1 + 1) else (n0, e1)

/-- Decimal digit characters of a natural number. -/
def digitsOf (n : ℕ) : List Char := (Nat.repr n).data

/-- Drop trailing `'0'` characters. -/
def stripZeros (ds : List Char) : List Char := (ds.reverse.dropWhile (fun c => c == '0')).reverse

/-- Left-pad a numeral to at least two characters, as `printf` renders
exponents. -/
def pad2 (s : String) : String := if s.length < 2 then "0" ++ s else s

/-- Fixed-style (`%f`-like) rendering of the 6-digit significand `n` at
decimal exponent `x` (`-4 ≤ x < 6`), with `%g`'s removal of trailing
fractional zeros and of a then-empty decimal point. -/
def fixedForm (n : ℕ) (x : ℤ) : String :=
  let ds := digitsOf n
  if 0 ≤ x then
    let ip := ds.take (x.toNat + 1)
    let fp := stripZeros (ds.drop (x.toNat + 1))
    if fp.isEmpty then String.mk ip else String.mk ip ++ "." ++ String.mk fp
  else
    "0." ++ String.mk (List.replicate ((-x).toNat - 1) '0' ++ stripZeros ds)

/-- Scientific-style (`%e`-like) rendering of the 6-digit significand `n`
at decimal exponent `x`, with `%g`'s trailing-zero removal and a signed,
at-least-two-digit exponent field. -/
def expForm (n : ℕ) (x : ℤ) : String :=
  let ds := digitsOf n
  let rest := stripZeros ds.tail
  let mant := if rest.isEmpty then String.mk (ds.take 1)
    else String.mk (ds.take 1) ++ "." ++ String.mk rest
  mant ++ "e" ++ (if x < 0 then "-" else "+") ++ pad2 (Nat.repr x.natAbs)

/-- `printf("%g", ·)` at default precision 6 applied to the positive value
`p / q`: round to 6 significant digits, then choose fixed style when the
decimal exponent `x` satisfies `-4 ≤ x < 6` and scientific style
otherwise (C17 7.21.6.1p8). -/
def formatGPos (p q : ℕ) : String :=
  let nx := sig6 p q
  if -4 ≤ nx.2 ∧ nx.2 < 6 then fixedForm nx.1 nx.2 else expForm nx.1 nx.2

/-- The text `printf("%g", v)` (default precision 6) emits for the exact
finite value `v`: `"0"` at zero, otherwise a sign plus the rendering of
the magnitude `|v| = v.num.natAbs / v.den`. -/
def formatG (v : ℚ) : String :=
  if v.num = 0 then "0"
  else if v.num < 0 then "-" ++ formatGPos v.num.natAbs v.den
  else formatGPos v.num.natAbs v.den

/-- C `writef` (`pascal_lib.c:25`): `printf("%g", x)`. -/
def writef (x : ℚ) : String := formatG x

/-- C `writelnf` (`pascal_lib.c:29`): `printf("%g\n", x)`. -/
def writelnf (x : ℚ) : String := formatG x ++ "\n"

example : formatG (mkRat 157 50) = "3.14" := by decide
example : formatG (mkRat 1234567 1) = "1.23457e+06" := by decide
example : formatG (mkRat 1234570 1) = "1.23457e+06" := by decide
example : formatG (mkRat 0 1) = "0" := by decide
example : formatG (mkRat 100 1) = "100" := by decide
example : formatG (mkRat 1 10000) = "0.0001" := by decide
example : formatG (mkRat 1 100000) = "1e-05" := by decide
example : formatG (mkRat (-5) 2) = "-2.5" := by decide
example : formatG (mkRat 19999995 10) = "2e+06" := by decide
example : formatG (mkRat 42 1) = "42" := by decide

/-- The widening `(double) f` conversion the `FUNC32` macro
(`pascal_lib.c:5`) applies to the `float` argument: exact, since every
binary32 value is exactly representable in binary64 — the identity on
modelled values. -/
def widen (f : ℚ) : ℚ := f

/-- `FUNC32(sin)` (`pascal_lib.c:43`): `float sin32(float f) { return
sin((double) f); }`.  libm's `sin` and the double→float narrowing the
`float` return type applies are platform externals, taken as
parameters. -/
def sin32 (csin narrowFD : ℚ → ℚ) (f : ℚ) : ℚ := narrowFD (csin (widen f))

/-- `FUNC32(cos)` (`pascal_lib.c:44`). -/
def cos32 (ccos narrowFD : ℚ → ℚ) (f : ℚ) : ℚ := narrowFD (ccos (widen f))

/-- `FUNC32(sqrt)` (`pascal_lib.c:45`). -/
def sqrt32 (csqrt narrowFD : ℚ → ℚ) (f : ℚ) : ℚ := narrowFD (csqrt (widen f))

/-- `FUNC32(exp)` (`pascal_lib.c:46`). -/
def exp32 (cexp narrowFD : ℚ → ℚ) (f : ℚ) : ℚ := narrowFD (cexp (widen f))

/-- `FUNC32(round)` (`pascal_lib.c:47`). -/
def round32 (cround narrowFD : ℚ → ℚ) (f : ℚ) : ℚ := narrowFD (cround (widen f))

/-- `FUNC32(writef)` (`pascal_lib.c:49`): `void writef32(float f) { return
writef((double) f); }` — the widened double forwarded to `writef`, no
narrowing anywhere. -/
def writef32 (f : ℚ) : String := writef (widen f)

/-- `FUNC32(writelnf)` (`pascal_lib.c:50`). -/
def writelnf32 (f : ℚ) : String := writelnf (widen f)

/-- C2: each single-precision math entry point widens its argument,
invokes the double-precision implementation, and narrows the result —
`fn32 f = narrow (fn64 (widen f))` for every platform `fn64`/`narrow` and
every argument, with no independent single-precision algorithm. -/
theorem C2_fn32_is_narrow_fn64_widen :
    ∀ (narrowFD csin ccos csqrt cexp cround : ℚ → ℚ) (f : ℚ),
      sin32 csin narrowFD f = narrowFD (csin (widen f)) ∧
      cos32 ccos narrowFD f = narrowFD (ccos (widen f)) ∧
      sqrt32 csqrt narrowFD f = narrowFD (csqrt (widen f)) ∧
      exp32 cexp narrowFD f = narrowFD (cexp (widen f)) ∧
      round32 cround narrowFD f = narrowFD (cround (widen f)) :=
  fun _ _ _ _ _ _ _ => ⟨rfl, rfl, rfl, rfl, rfl⟩

/-- C7: `writef32`/`writelnf32` forward the widened (value-preserving)
double to the existing double-precision wrappers, so their output is
exactly `writef`/`writelnf` of the widened value — formatting always
happens in double precision. -/
theorem C7_writef32_forwards_to_writef :
    ∀ f : ℚ, writef32 f = writef (widen f) ∧ writelnf32 f = writelnf (widen f) ∧ widen f = f :=
  fun _ => ⟨rfl, rfl, rfl⟩

/-- C8: `writei` emits the signed decimal numeral with no separator
(`writei 42 = "42"`), and each line variant is exactly the plain variant
plus one newline. -/
theorem C8_writei_and_line_variants :
    writei 42 = "42" ∧
    (∀ n : ℤ, writei n = Int.repr n) ∧
    (∀ x : ℚ, writelnf x = writef x ++ "\n") ∧
    (∀ n : ℤ, writelni n = writei n ++ "\n") :=
  ⟨by decide, fun _ => rfl, fun _ => rfl, fun _ => rfl⟩

/-- C4 counterexample: `writef` renders the two distinct doubles `1234567`
and `1234570` as the same text `"1.23457e+06"`, so no parser can recover
the value from the output — the printed text is not consistent with any
(shortest-)round-trip formatter.  `%g` rounds to 6 significant digits. -/
theorem C4_writef_not_round_trip :
    writef (mkRat 1234567 1) = "1.23457e+06" ∧
    writef (mkRat 1234570 1) = "1.23457e+06" ∧
    (mkRat 1234567 1 : ℚ) ≠ mkRat 1234570 1 ∧
    (mkRat 1234567 1 : ℚ) = 1234567 ∧ (mkRat 1234570 1 : ℚ) = 1234570 := by
  refine ⟨by decide, by decide, by decide, ?_, ?_⟩ <;> norm_num [Rat.mkRat_eq_div]

/-- C4 amended: `writef` emits `printf`'s `%g` rendering at the default
precision — a general fixed/scientific format rounded to 6 significant
digits with trailing fractional zeros removed and no trailing separator —
so `writef 3.14 = "3.14"` (not `"3.140000"`) and `writef 42 = "42"`, but
the format is not shortest-round-trip. -/
theorem C4_writef_is_g_format :
    writef (mkRat 157 50) = "3.14" ∧
    writef (mkRat 157 50) ≠ "3.140000" ∧
    (mkRat 157 50 : ℚ) = 3.14 ∧
    writef (mkRat 42 1) = "42" ∧
    (∀ v : ℚ, writef v = formatG v) := by
  refine ⟨by decide, by decide, ?_, by decide, fun _ => rfl⟩
  norm_num [Rat.mkRat_eq_div]

/-- The C double→int conversion (C11 6.3.1.4): the fractional part is
discarded (truncation toward zero); if the truncated value does not fit
the 32-bit `int` range the behaviour is undefined — modelled as `none`. -/
def doubleToInt (y : ℚ) : Option ℤ :=
  if -((2 : ℤ)^31) ≤ ctrunc y ∧ ctrunc y ≤ 2^31 - 1 then some (ctrunc y) else none

/-- The value `iround`'s branch feeds to the double→int conversion:
`x + 0.5` for non-negative `x`, else `x - 0.5`. -/
def adjusted (x : ℚ) : ℚ := if 0 ≤ x then addHalf x else subHalf x

/-- `iround` with the double→int conversion's definedness made explicit:
`none` exactly when the C code's conversion would be undefined. -/
def iroundChecked (x : ℚ) : Option ℤ :=
  if 0 ≤ x then doubleToInt (addHalf x) else doubleToInt (subHalf x)

theorem adjusted_eq (x : ℚ) : adjusted x = if 0 ≤ x then x + 1/2 else x - 1/2 := by
  rw [adjusted]
  by_cases h : 0 ≤ x
  · rw [if_pos h, if_pos h, addHalf_eq]
  · rw [if_neg h, if_neg h, subHalf_eq]

/-- C9: when the adjusted value `x ± 0.5` lies within the signed 32-bit
int range `[-2147483648, 2147483647]`, the truncating double→int
conversion inside `iround` is defined and `iroundChecked` agrees with
`iround` — the conversion's undefined branch is unreachable under this
precondition. -/
theorem C9_iround_conversion_defined (x : ℚ)
    (h1 : (-2147483648 : ℚ) ≤ adjusted x) (h2 : adjusted x ≤ (2147483647 : ℚ)) :
    iroundChecked x = some (iround x) := by
  rw [adjusted_eq] at h1 h2
  have hlo : (((-2147483648 : ℤ)) : ℚ) = (-2147483648 : ℚ) := by push_cast; ring
  have hhi : (((2147483647 : ℤ)) : ℚ) = (2147483647 : ℚ) := by push_cast; ring
  have hlo2 : -((2 : ℤ)^31) = -2147483648 := by norm_num
  have hhi2 : (2 : ℤ)^31 - 1 = 2147483647 := by norm_num
  by_cases h : 0 ≤ x
  · rw [if_pos h] at h1 h2
    rw [iroundChecked, if_pos h, iround, if_pos h, doubleToInt, if_pos]
    have hy : (0 : ℚ) ≤ addHalf x := by rw [addHalf_eq]; linarith
    rw [ctrunc_of_nonneg hy, addHalf_eq, hlo2, hhi2]
    constructor
    · calc (-2147483648 : ℤ) ≤ 0 := by norm_num
        _ ≤ ⌊x + 1/2⌋ := Int.floor_nonneg.mpr (by linarith)
    · have h3 := Int.floor_le_floor (α := ℚ) h2
      rwa [← hhi, Int.floor_intCast] at h3
  · rw [if_neg h] at h1 h2
    rw [iroundChecked, if_neg h, iround, if_neg h, doubleToInt, if_pos]
    have hx : x < 0 := not_le.mp h
    have hy : subHalf x < 0 := by rw [subHalf_eq]; linarith
    rw [ctrunc_of_neg hy, subHalf_eq, hlo2, hhi2]
    constructor
    · have h3 := Int.ceil_le_ceil (α := ℚ) h1
      rwa [← hlo, Int.ceil_intCast] at h3
    · calc ⌈x - 1/2⌉ ≤ 0 := Int.ceil_le.mpr (by push_cast; linarith)
        _ ≤ (2147483647 : ℤ) := by norm_num

theorem C9_iround_conversion_defined_witness :
    iroundChecked (mkRat 5 2) = some (iround (mkRat 5 2)) :=
  C9_iround_conversion_defined (mkRat 5 2) (by decide) (by decide)

/-- Fuel-driven base-2 logarithm on naturals, executable by kernel
reduction; agrees with `Nat.log2` (see `natLog2_eq`). -/
def natLog2Aux : ℕ → ℕ → ℕ
  | 0, _ => 0
  | fuel+1, n => if n < 2 then 0 else natLog2Aux fuel (n / 2) + 1

/-- Floor of log base 2 on naturals (0 at 0). -/
def natLog2 (n : ℕ) : ℕ := natLog2Aux n n

theorem natLog2Aux_eq : ∀ fuel n, n ≤ fuel → natLog2Aux fuel n = Nat.log2 n := by
  intro fuel
  induction fuel with
  | zero =>
      intro n hn
      have h0 : n = 0 := Nat.le_zero.mp hn
      subst h0
      rw [Nat.log2]
      simp [natLog2Aux]
  | succ fuel ih =>
      intro n hn
      by_cases h : n < 2
      · simp only [natLog2Aux, if_pos h]
        rw [Nat.log2, if_neg (by omega)]
      · simp only [natLog2Aux, if_neg h]
        rw [ih (n / 2) (by omega)]
        conv_rhs => rw [Nat.log2]
        rw [if_pos (by omega)]

theorem natLog2_eq (n : ℕ) : natLog2 n = Nat.log2 n := natLog2Aux_eq n n le_rfl

/-- Round the integer `n` to the nearest multiple of `2^s` divided by
`2^s`, ties to even — the rounding a binary floating-point conversion
applies to a value whose significand needs `s` bits fewer. -/
def roundEvenDiv (n : ℤ) (s : ℕ) : ℤ :=
  if 2 * (n % 2^s) < 2^s then n / 2^s
  else if 2^s < 2 * (n % 2^s) then n / 2^s + 1
  else if (n / 2^s) % 2 = 0 then n / 2^s else n / 2^s + 1

theorem roundEvenDiv_of_dvd (n : ℤ) (s : ℕ) (h : (2 : ℤ)^s ∣ n) :
    roundEvenDiv n s * 2^s = n := by
  have hd : (0 : ℤ) < 2^s := by positivity
  have hr : n % 2^s = 0 := Int.emod_eq_zero_of_dvd h
  rw [roundEvenDiv, hr, if_pos (by simp only [mul_zero]; exact hd)]
  exact Int.ediv_mul_cancel h

/-- Modelled from the spec and IEEE-754: the C int→float conversion at
`iround32`'s return (binary32, round to nearest, ties to even).  The
result of converting an `int` is always integral — a multiple of `2^s`
where `s` leaves 24 significant bits — so its exact value is returned as
an integer; conversion is the identity whenever `|n| ≤ 2^24`. -/
def intToF32 (n : ℤ) : ℤ :=
  if n.natAbs ≤ 2^24 then n
  else roundEvenDiv n (natLog2 n.natAbs - 23) * 2^(natLog2 n.natAbs - 23)

/-- `FUNC32(iround)` (`pascal_lib.c:48`): `float iround32(float f) {
return iround((double) f); }` — `iround`'s int result converted to
binary32 by the `float` return type; the returned float's exact value. -/
def iround32 (f : ℚ) : ℤ := intToF32 (iround (widen f))

/-- Two to an integer power, applied to an integer significand: the exact
rational value `m * 2^e`, computed on integer fields. -/
def qmul2pow (m e : ℤ) : ℚ :=
  if 0 ≤ e then mkRat (m * 2^e.toNat) 1 else mkRat m (2^(-e).toNat)

/-- A rational is a finite binary32 value iff it is `m * 2^e` for a
24-bit significand and an exponent in the binary32 range (subnormals
included, `(2^24-1) * 2^104` being the largest finite value). -/
def Fin32Repr (f : ℚ) : Prop :=
  ∃ m e : ℤ, m.natAbs < 2^24 ∧ -149 ≤ e ∧ e ≤ 104 ∧ f = qmul2pow m e

theorem qmul2pow_eq (m e : ℤ) : qmul2pow m e = (m : ℚ) * (2 : ℚ)^e := by
  rw [qmul2pow]
  by_cases h : 0 ≤ e
  · rw [if_pos h, Rat.mkRat_eq_div]
    push_cast
    rw [div_one, ← zpow_natCast (2 : ℚ) e.toNat, Int.toNat_of_nonneg h]
  · rw [if_neg h, Rat.mkRat_eq_div]
    push_cast
    have he : e = -(((-e).toNat : ℕ) : ℤ) := by omega
    rw [div_eq_mul_inv, ← zpow_natCast (2 : ℚ) (-e).toNat, ← zpow_neg, ← he]

theorem intToF32_of_small (n : ℤ) (h : n.natAbs ≤ 2^24) : intToF32 n = n := by
  rw [intToF32, if_pos h]

theorem intToF32_mul_pow (m : ℤ) (k : ℕ) (hm : m.natAbs < 2^24) :
    intToF32 (m * 2^k) = m * 2^k := by
  by_cases hsmall : (m * 2^k).natAbs ≤ 2^24
  · rw [intToF32, if_pos hsmall]
  · rw [intToF32, if_neg hsmall]
    have ha : (m * 2^k).natAbs = m.natAbs * 2^k := by
      rw [Int.natAbs_mul, Int.natAbs_pow]
      norm_num
    have ha0 : (m * 2^k).natAbs ≠ 0 := by omega
    have hlt : (m * 2^k).natAbs < 2^(24 + k) := by
      rw [ha, pow_add]
      exact mul_lt_mul_of_pos_right hm (pow_pos (by norm_num) k)
    have hlog : Nat.log2 ((m * 2^k).natAbs) < 24 + k := (Nat.log2_lt ha0).mpr hlt
    have hs : natLog2 ((m * 2^k).natAbs) - 23 ≤ k := by rw [natLog2_eq]; omega
    have hdvd : (2 : ℤ)^(natLog2 ((m * 2^k).natAbs) - 23) ∣ m * 2^k :=
      Dvd.dvd.mul_left (pow_dvd_pow 2 hs) m
    exact roundEvenDiv_of_dvd _ _ hdvd

theorem intToF32_iround_exact (f : ℚ) (hf : Fin32Repr f) :
    intToF32 (iround f) = iround f := by
  obtain ⟨m, e, hm, -, -, hval⟩ := hf
  rw [qmul2pow_eq] at hval
  by_cases hbig : (2 : ℚ)^23 ≤ |f|
  · have hm0 : |(m : ℚ)| ≤ 2^24 - 1 := by
      rw [← Int.cast_abs, Int.abs_eq_natAbs]
      have h1 : (m.natAbs : ℤ) ≤ 2^24 - 1 := by omega
      calc ((m.natAbs : ℤ) : ℚ) ≤ (((2 : ℤ)^24 - 1 : ℤ) : ℚ) := by exact_mod_cast h1
        _ = 2^24 - 1 := by push_cast; ring
    have he : 0 ≤ e := by
      by_contra hneg
      push_neg at hneg
      have h2 : (2 : ℚ)^e ≤ (2 : ℚ)^(-1 : ℤ) := zpow_le_zpow_right₀ (by norm_num) (by omega)
      have h3 : (2 : ℚ)^(-1 : ℤ) = 1/2 := by
        rw [zpow_neg, zpow_one]
        norm_num
      have h5 : (0 : ℚ) < (2 : ℚ)^e := zpow_pos (by norm_num) e
      have h4 : |f| = |(m : ℚ)| * (2 : ℚ)^e := by
        rw [hval, abs_mul, abs_of_pos h5]
      have h6 : |f| ≤ (2^24 - 1) * (2 : ℚ)^e := by
        rw [h4]
        exact mul_le_mul_of_nonneg_right hm0 h5.le
      have h7 : (2^24 - 1 : ℚ) * (2 : ℚ)^e ≤ (2^24 - 1) * (1/2) := by
        apply mul_le_mul_of_nonneg_left (h2.trans_eq h3) (by norm_num)
      have h8 : ((2 : ℚ)^24 - 1) * (1/2) < 2^23 := by norm_num
      linarith
    obtain ⟨k, rfl⟩ : ∃ k : ℕ, e = (k : ℤ) := ⟨e.toNat, (Int.toNat_of_nonneg he).symm⟩
    have hint : f = ((m * 2^k : ℤ) : ℚ) := by
      rw [hval]
      push_cast
      rw [zpow_natCast]
    rw [hint, iround_intCast]
    exact intToF32_mul_pow m k hm
  · push_neg at hbig
    have h1 := abs_iround_le f
    have h2 : |(iround f : ℚ)| < 2^23 + 1/2 := by linarith
    have h4 : ((|iround f| : ℤ) : ℚ) < ((2^23 + 1 : ℤ) : ℚ) := by
      rw [Int.cast_abs]
      push_cast
      linarith
    have h5 : |iround f| < 2^23 + 1 := by exact_mod_cast h4
    apply intToF32_of_small
    rw [Int.abs_eq_natAbs] at h5
    omega

/-- C10 counterexample: at the representable input `16777218` — whose
rounded integer magnitude exceeds `2^24` — `iround32` still returns
exactly `iround`'s integer, refuting the claimed possibility of the float
result not representing that integer. -/
theorem C10_no_loss_at_large_input :
    Fin32Repr (mkRat 16777218 1) ∧
    2^24 < iround (mkRat 16777218 1) ∧
    iround32 (mkRat 16777218 1) = iround (widen (mkRat 16777218 1)) := by
  exact ⟨⟨8388609, 1, by decide, by decide, by decide, by decide⟩, by decide, by decide⟩

/-- C10 amended: `iround32` returns a float whose value is
`iround (widen f)` converted from int to binary32 — and on every finite
binary32 input that conversion is exact, since floats of magnitude
`≥ 2^23` are integers and smaller inputs round to at most `2^23`; so the
returned float always represents `iround`'s integer exactly. -/
theorem C10_iround32_exact :
    (∀ f : ℚ, iround32 f = intToF32 (iround (widen f))) ∧
    (∀ f : ℚ, Fin32Repr f → iround32 f = iround f) :=
  ⟨fun _ => rfl, fun f hf => intToF32_iround_exact f hf⟩

theorem C10_iround32_exact_witness : iround32 (mkRat 5 2) = iround (mkRat 5 2) :=
  C10_iround32_exact.2 (mkRat 5 2) ⟨5, -1, by decide, by decide, by decide, by decide⟩

/-- Platform allocator model (the C library `malloc`, external to this
repository): `alloc n` yields `some block` holding at least `n` bytes of
arbitrary (uninitialized) content, or `none` when the request cannot be
satisfied. -/
structure Allocator where
  alloc : ℕ → Option (List ℕ)
  alloc_size : ∀ n b, alloc n = some b → n ≤ b.length

/-- The implicit C int→size_t conversion at the `malloc(size)` call site
(64-bit `size_t`): reduce modulo `2^64`. -/
def toSizeT (n : ℤ) : ℕ := (n % (2 : ℤ)^64).toNat

/-- C `new` (`pascal_lib.c:33`): `return (int*) malloc(size);` — the
allocator's handle returned unchanged (the pointer cast is
value-preserving; no initialization, no null check). -/
def new (A : Allocator) (size : ℤ) : Option (List ℕ) := A.alloc (toSizeT size)

/-- C6: `new` passes the request straight to the platform allocator and
returns its handle unchanged: no zero-initialization is performed, a
`none` (null) result is propagated rather than checked or replaced, and a
successful block has at least the requested number of bytes. -/
theorem C6_new_is_unchecked_malloc (A : Allocator) (size : ℤ) :
    new A size = A.alloc (toSizeT size) ∧
    (A.alloc (toSizeT size) = none → new A size = none) ∧
    (∀ b, new A size = some b → toSizeT size ≤ b.length) :=
  ⟨rfl, fun h => h, fun b h => A.alloc_size _ b h⟩

/-- An always-succeeding zero-filled allocator, used to witness C6. -/
def okAlloc : Allocator where
  alloc := fun n => some (List.replicate n 0)
  alloc_size := fun n b h => by
    injection h with h2
    subst h2
    simp

theorem C6_new_is_unchecked_malloc_witness :
    toSizeT 3 ≤ ([0, 0, 0] : List ℕ).length :=
  (C6_new_is_unchecked_malloc okAlloc 3).2.2 [0, 0, 0] (by decide)
